import Mathlib

/-!
# Verification of the iex curl-wrapper fetch engine

Shallow embedding of the concurrent URL-fetch engine of the `iex` C++
library, translated from:

* `src/include/iex/detail/curl_wrapper.h` (Url, Param, Params, RetryBehavior)
* `src/include/iex/detail/common.h`      (KVP and its key comparator)
* `src/include/iex/detail/utils.h`       (Join)
* `src/lib/curl_wrapper.cc`              (retry decision, batch loop,
                                          handle pool, result aggregation)
* `src/lib/api.cc`                       (rate gate `detail::PerformCurl`)

Machine integers are modelled with `Int`/`Nat`; C++ maps keyed by `Url`
are modelled as association lists with unique keys; exceptions are
modelled with `Except`.
-/

namespace Iex

/-! ## Url model (curl_wrapper.h) -/

/-- The four `InvalidUrlError::ErrorID` values from `curl_wrapper.h`. -/
inductive ErrorID where
  | EMPTY_URL
  | EMPTY_PARAM_KEY
  | EMPTY_PARAM_VALUE
  | EMPTY_PARAM_LIST_VALUE
  deriving DecidableEq, Repr

/-- `InvalidUrlError::Validator<T>(error_id)`: returns the string unchanged
when non-empty, otherwise throws `InvalidUrlError(error_id)`. -/
def Validator (eid : ErrorID) (s : String) : Except ErrorID String :=
  if s = "" then Except.error eid else Except.ok s

/-- Modelled from the spec: the external `curl_easy_escape` primitive used by
`Url::Param::Escape` (the source delegates to libcurl, which is not part of
this repository).  Percent-encodes every byte outside the RFC 3986 unreserved
set, exactly as the spec requires reserved characters such as `+` to be
escaped.  Restricted to the ASCII code points the repository's tests use. -/
def isUnreservedChar (c : Char) : Bool :=
  c.isAlphanum || c = '-' || c = '.' || c = '_' || c = '~'

/-- Upper-case hexadecimal digit for `n < 16`. -/
def hexDigit (n : Nat) : Char :=
  if n < 10 then Char.ofNat ('0'.toNat + n) else Char.ofNat ('A'.toNat + (n - 10))

/-- Percent-encoding of one character (see `isUnreservedChar`). -/
def escapeChar (c : Char) : List Char :=
  if isUnreservedChar c then [c]
  else '%' :: hexDigit (c.toNat / 16 % 16) :: [hexDigit (c.toNat % 16)]

/-- `Url::Param::Escape`: percent-escapes a parameter value. -/
def Escape (s : String) : String :=
  ⟨s.data.flatMap escapeChar⟩

/-- `Url::Param`: a key/value pair (`KVP<std::string>` from `common.h`) whose
value has already been validated and escaped by the constructor. -/
structure Param where
  key : String
  value : String
  deriving DecidableEq, Repr

/-- `Param::operator std::string()`: `key + '=' + value`. -/
def Param.toStr (p : Param) : String :=
  p.key ++ "=" ++ p.value

/-- `Param(key, value)`: validates the key (`EMPTY_PARAM_KEY`) and the value
(`EMPTY_PARAM_VALUE`), then escapes the value. -/
def Param.make (k v : String) : Except ErrorID Param :=
  match Validator ErrorID.EMPTY_PARAM_KEY k with
  | Except.error e => Except.error e
  | Except.ok k' =>
    match Validator ErrorID.EMPTY_PARAM_VALUE v with
    | Except.error e => Except.error e
    | Except.ok v' => Except.ok ⟨k', Escape v'⟩

/-- `utils::Join` specialised to strings: empty range gives the empty string,
otherwise the elements are concatenated with the delimiter between them. -/
def JoinStr (delim : String) : List String → String
  | [] => ""
  | x :: xs => xs.foldl (fun acc s => acc ++ delim ++ s) x

/-- The element-wise transform of the list-`Param` constructor: each element
is validated (`EMPTY_PARAM_LIST_VALUE`) and escaped, in order, with the first
failure propagated. -/
def escapeListValues : List String → Except ErrorID (List String)
  | [] => Except.ok []
  | v :: rest =>
    match Validator ErrorID.EMPTY_PARAM_LIST_VALUE v with
    | Except.error e => Except.error e
    | Except.ok v' =>
      match escapeListValues rest with
      | Except.error e => Except.error e
      | Except.ok rest' => Except.ok (Escape v' :: rest')

/-- `Param(key, v_begin, v_end)`: validates the key, then validates and
escapes every list element and joins them with `','` (`utils::Join`). -/
def Param.makeList (k : String) (vs : List String) : Except ErrorID Param :=
  match Validator ErrorID.EMPTY_PARAM_KEY k with
  | Except.error e => Except.error e
  | Except.ok k' =>
    match escapeListValues vs with
    | Except.error e => Except.error e
    | Except.ok parts => Except.ok ⟨k', JoinStr "," parts⟩

/-! ### Params: `std::set<Param, Param::KeyCompare>`

`KVP::KeyCompare` orders params by `a.key < b.key` alone, so the set is
key-sorted and key-unique; `std::set::insert` keeps the existing element
when an equivalent key is already present. -/

/-- `std::string::operator<`: lexicographic comparison of the character
sequences.  Written as a structural recursion so that it evaluates. -/
def charListLt : List Char → List Char → Bool
  | _, [] => false
  | [], _ :: _ => true
  | a :: as, b :: bs =>
    if a < b then true else if b < a then false else charListLt as bs

/-- `std::string::operator<` on whole strings. -/
def strLt (x y : String) : Bool := charListLt x.data y.data

/-- The strict order used by `Param::KeyCompare` (`a.key < b.key`). -/
def keyLt (a b : Param) : Prop := strLt a.key b.key = true

instance : DecidableRel keyLt := fun a b => by
  unfold keyLt; infer_instance

/-- The keys of a list of params, in order. -/
def keysP (l : List Param) : List String := l.map Param.key

/-- `Params` is key-sorted (strictly increasing keys). -/
def SortedKeys (l : List Param) : Prop := l.Pairwise keyLt

/-- `std::set<Param, KeyCompare>::insert`: walk the sorted list; insert before
the first larger key; if an equivalent key is found, keep the existing
element (first insertion wins). -/
def Params.insertP (p : Param) : List Param → List Param
  | [] => [p]
  | q :: s =>
    if strLt p.key q.key then p :: q :: s
    else if strLt q.key p.key then q :: Params.insertP p s
    else q :: s

/-- Building a `Params` set by inserting the given params in order, as a
`std::set` constructed from an iterator range does. -/
def Params.ofList (l : List Param) : List Param :=
  l.foldl (fun s p => Params.insertP p s) []

/-! ### Url -/

/-- `Url`: holds only the escaped string `impl_`. -/
structure Url where
  impl : String
  deriving DecidableEq, Repr

/-- `Url::UrlHasher`: `std::hash` of the string representation.  Modelled as
`String.hash`; only its congruence (equal strings hash equally) matters. -/
def Url.hashVal (u : Url) : UInt64 := u.impl.hash

/-- `Url(base, params_begin, params_end)`: validates the base
(`EMPTY_URL`), then appends `'?'` and the `'&'`-joined `key=value` strings
only if at least one parameter exists. -/
def Url.make (base : String) (ps : List Param) : Except ErrorID Url :=
  match Validator ErrorID.EMPTY_URL base with
  | Except.error e => Except.error e
  | Except.ok b =>
    Except.ok ⟨if ps = [] then b else b ++ "?" ++ JoinStr "&" (ps.map Param.toStr)⟩

/-- A caller-side parameter specification: either a single-valued or a
list-valued parameter, before construction. -/
inductive ParamSpec where
  | single (k v : String)
  | listed (k : String) (vs : List String)

/-- Construct one `Param` from a specification (the two `Param` constructor
overloads). -/
def mkParam : ParamSpec → Except ErrorID Param
  | ParamSpec.single k v => Param.make k v
  | ParamSpec.listed k vs => Param.makeList k vs

/-- Construct every `Param` of a call site, in order, propagating the first
`InvalidUrlError`. -/
def mkParams : List ParamSpec → Except ErrorID (List Param)
  | [] => Except.ok []
  | sp :: rest =>
    match mkParam sp with
    | Except.error e => Except.error e
    | Except.ok p =>
      match mkParams rest with
      | Except.error e => Except.error e
      | Except.ok ps => Except.ok (p :: ps)

/-- Full Url construction pipeline: build the params (they are constructor
arguments, evaluated first), collect them into the key-sorted `Params` set,
then run the `Url` constructor on the base. -/
def buildUrl (base : String) (specs : List ParamSpec) : Except ErrorID Url :=
  match mkParams specs with
  | Except.error e => Except.error e
  | Except.ok ps => Url.make base (Params.ofList ps)

/-- The failure condition named by the claim: an empty key, an empty
single value, or an empty element of a list value. -/
def badSpec : ParamSpec → Prop
  | ParamSpec.single k v => k = "" ∨ v = ""
  | ParamSpec.listed k vs => k = "" ∨ "" ∈ vs

instance : DecidablePred badSpec := fun sp => by
  cases sp <;> · unfold badSpec; infer_instance

/-! ## Retry policy (curl_wrapper.h / curl_wrapper.cc)

`RetryBehavior` is configuration; the retry decision is the completion
handler of `MultiHandleWrapper::Get` (curl_wrapper.cc lines 170-203). -/

/-- The transport result of one completed transfer (`CURLcode`):
`CURLE_OK`, `CURLE_HTTP_RETURNED_ERROR` carrying the HTTP response code
readable through `CURLINFO_RESPONSE_CODE`, or any other failure code. -/
inductive CurlCode where
  | ok
  | httpReturnedError (code : Int)
  | otherError (e : Nat)
  deriving DecidableEq, Repr

/-- The code reads `CURLINFO_RESPONSE_CODE` only when the result is
`CURLE_HTTP_RETURNED_ERROR`; otherwise `http_code` keeps its initial `0`. -/
def httpCodeOf : CurlCode → Int
  | CurlCode.httpReturnedError c => c
  | _ => 0

/-- One attempt's completion: its transport result and the bytes the write
callback accumulated into the handle's data buffer during this attempt. -/
structure Outcome where
  result : CurlCode
  body : String
  deriving DecidableEq, Repr

/-- `RetryBehavior` from `curl_wrapper.h` (`max_retries` is a C++ `int`;
`responses_to_retry` is an `unordered_set<HttpResponseCode>`, modelled as a
list queried by membership; `timeout` is a millisecond count). -/
structure RetryBehavior where
  max_retries : Int := 0
  responses_to_retry : List Int := []
  retry_if_empty_response_data : Bool := false
  timeout : Nat := 0

/-- The retry decision of `MultiHandleWrapper::Get` (curl_wrapper.cc
lines 170-187): `retry_allowed = max_retries > retries[url]`; if the GET
failed or the accumulated data is empty, retry when allowed and either the
(possibly 0) HTTP code is in `responses_to_retry` or the data is empty and
`retry_if_empty_response_data` is set; otherwise finalize. -/
def decideRetry (rb : RetryBehavior) (retriesSoFar : Nat) (oc : Outcome) : Bool :=
  if oc.result ≠ CurlCode.ok ∨ oc.body = "" then
    decide ((retriesSoFar : Int) < rb.max_retries) &&
      (rb.responses_to_retry.contains (httpCodeOf oc.result) ||
        (decide (oc.body = "") && rb.retry_if_empty_response_data))
  else false

/-- Modelled from the spec: the Retry Policy Evaluator of §4.3, whose ordered
rules the code is claimed to implement.  Rule 1: no retries left → finalize.
Rule 2: transport failed with an HTTP error status in `responses_to_retry` →
retry.  Rule 3: transport succeeded with an empty body and
`retry_if_empty_response_data` set → retry.  Rule 4: finalize. -/
def specRetryDecision (rb : RetryBehavior) (retriesSoFar : Nat) (oc : Outcome) : Bool :=
  if rb.max_retries ≤ (retriesSoFar : Int) then false
  else if (match oc.result with
      | CurlCode.httpReturnedError c => rb.responses_to_retry.contains c
      | _ => false) then true
  else if oc.result = CurlCode.ok ∧ oc.body = "" ∧ rb.retry_if_empty_response_data then true
  else false

/-- The per-Url life of one request inside the batch loop, driven by the
completion handler: attempt number `c` (also the current value of the
`retries[url]` counter) observes `outs c`; if `decideRetry` fires, the data
buffer is cleared, the counter incremented and the handle resubmitted,
otherwise the request is final.  Returns the final attempt's outcome and the
total number of attempts issued.  `fuel` is an upper bound on the remaining
loop iterations, used only to make the recursion structural; `runUrl`
instantiates it so that it never runs out (see `runUrl_eq`). -/
def runUrlAux (rb : RetryBehavior) (outs : Nat → Outcome) : Nat → Nat → Outcome × Nat
  | 0, c => (outs c, 1)
  | fuel + 1, c =>
    if decideRetry rb c (outs c) then
      let r := runUrlAux rb outs fuel (c + 1)
      (r.1, r.2 + 1)
    else (outs c, 1)

/-- The per-Url retry loop started with counter value `c`. -/
def runUrl (rb : RetryBehavior) (outs : Nat → Outcome) (c : Nat) : Outcome × Nat :=
  runUrlAux rb outs (rb.max_retries.toNat + 1 - c) c

/-! ## Connection-handle pool (curl_wrapper.cc, `MultiHandleWrapper`)

`handles_in_use_` and `available_handles_` are `UrlMap<EasyHandleDataPair>`
(unordered maps keyed by `Url` with unique keys), modelled as association
lists; the `EasyHandleDataPair` itself is abstracted to a `Nat` identity,
which is all the pooling claims are about.  Fresh handles created by
`emplace(url, url)` get identities from a counter. -/

/-- The per-thread pool state of `MultiHandleWrapper`. -/
structure Pool where
  available : List (Url × Nat)
  inUse : List (Url × Nat)
  next : Nat
  deriving DecidableEq, Repr

/-- Keys of an association list of handles. -/
def keysH (l : List (Url × Nat)) : List Url := l.map Prod.fst

/-- `unordered_map::extract(key)`: removes and returns the node with the
given key if present (keys are unique in a map). -/
def extractKey (u : Url) : List (Url × Nat) → Option Nat × List (Url × Nat)
  | [] => (none, [])
  | (v, h) :: rest =>
    if v = u then (some h, rest)
    else
      let r := extractKey u rest
      (r.1, (v, h) :: r.2)

/-- First loop of `GetAvailableHandles` (curl_wrapper.cc lines 233-245):
for each url, stop if the idle pool is empty, otherwise extract the idle
node already bound to this exact url, if any, and move it to the in-use
map. -/
def step1 : List Url → Pool → Pool
  | [], p => p
  | u :: rest, p =>
    if p.available = [] then p
    else
      match extractKey u p.available with
      | (some hdl, avail') =>
        step1 rest { p with available := avail', inUse := p.inUse ++ [(u, hdl)] }
      | (none, _) => step1 rest p

/-- Second loop of `GetAvailableHandles` (curl_wrapper.cc lines 248-267):
for each url not yet in use, rebind the first idle node to it if the idle
pool is non-empty, otherwise emplace a brand-new handle for it. -/
def step2 : List Url → Pool → Pool
  | [], p => p
  | u :: rest, p =>
    if u ∈ keysH p.inUse then step2 rest p
    else
      match p.available with
      | (_, hdl) :: avail' =>
        step2 rest { p with available := avail', inUse := p.inUse ++ [(u, hdl)] }
      | [] =>
        step2 rest { p with inUse := p.inUse ++ [(u, p.next)], next := p.next + 1 }

/-- `MultiHandleWrapper::GetAvailableHandles`. -/
def getAvailableHandles (urls : List Url) (p : Pool) : Pool :=
  step2 urls (step1 urls p)

/-- `MultiHandleWrapper::ClearUsedHandles`:
`available_handles_.merge(handles_in_use_)`.  `unordered_map::merge` moves
exactly those nodes whose key is not already present in the target map and
leaves the rest in the source. -/
def clearUsedHandles (p : Pool) : Pool :=
  { available := p.available ++ p.inUse.filter (fun e => e.1 ∉ keysH p.available),
    inUse := p.inUse.filter (fun e => e.1 ∈ keysH p.available),
    next := p.next }

/-! ## Result aggregation (curl_wrapper.cc, `ExtractData` and `Get`) -/

/-- The parsed response: nlohmann JSON abstracted to "null or some non-null
document".  `Json::parse` failures are caught and leave the
default-constructed (null) value. -/
inductive Json where
  | null
  | val (s : String)
  deriving DecidableEq, Repr

/-- `EasyHandleDataPair::ExtractData` applied to the handle's final data
buffer: an empty buffer yields the default (null) JSON; otherwise the buffer
is parsed, with any parse exception swallowed (leaving null).  The `parse`
argument models the external nlohmann parser; it returns `Json.null` for
unparseable input and for the JSON document `null`. -/
def ExtractData (parse : String → Json) (body : String) : Json :=
  if body = "" then Json.null else parse body

/-- The final aggregation loop of `MultiHandleWrapper::Get` (lines 213-218):
over the in-use handles, extract each one's data and insert it into the
returned map only if it is not null. -/
def getResults (rb : RetryBehavior) (outs : Url → Nat → Outcome)
    (parse : String → Json) (ks : List Url) : List (Url × Json) :=
  ks.filterMap fun u =>
    let j := ExtractData parse (runUrl rb (outs u) 0).1.body
    if j = Json.null then none else some (u, j)

set_option linter.unusedVariables false in
/-- `MultiHandleWrapper::Get`: acquire handles for the url set, drive every
url to completion under the retry policy (`runUrl`, fed by the environment
`outs` giving each url its successive attempt outcomes), aggregate the
non-null results over the in-use handles, and release all handles.
`maxConnections` is only handed to `CURLMOPT_MAX_TOTAL_CONNECTIONS`; it
bounds parallelism but not the outcome. -/
def GetFull (maxConnections : Int) (rb : RetryBehavior) (urls : List Url)
    (outs : Url → Nat → Outcome) (parse : String → Json) (p : Pool) :
    List (Url × Json) × Pool :=
  let p1 := getAvailableHandles urls p
  (getResults rb outs parse (keysH p1.inUse), clearUsedHandles p1)

/-- Total number of transfer attempts a batch issues for the given in-use
urls (instrumentation over the scheduler model). -/
def attemptTotal (rb : RetryBehavior) (outs : Url → Nat → Outcome)
    (ks : List Url) : Nat :=
  (ks.map fun u => (runUrl rb (outs u) 0).2).sum

/-! ## Rate gate (api.cc, `detail::PerformCurl`)

One gate passage, in abstract integer time units.  The caller enters the
critical section at time `now` (holding `api_call_mutex`), computes
`time_since_last_call = now - last_call_ts`, sleeps for
`timeout - time_since_last_call` (a non-positive duration sleeps not at
all), then calls `curl::Get` (taking `dur` units) and finally stores the
previously captured `now` into `last_call_ts`. -/

/-- One passage of `detail::PerformCurl`'s gate: returns
(dispatch start time, lock release time, new `last_call_ts`). -/
def performCurlGate (timeout last now dur : Int) : Int × Int × Int :=
  let sleepFor := max (timeout - (now - last)) 0
  let dispatch := now + sleepFor
  (dispatch, dispatch + dur, now)

/-! ## Url construction lemmas (claim C4) -/

theorem Validator_error_iff (eid : ErrorID) (s : String) :
    (∃ e, Validator eid s = Except.error e) ↔ s = "" := by
  unfold Validator
  split
  · next h => simp [h]
  · next h => simp [h]

theorem Validator_ok (eid : ErrorID) (s : String) (h : ¬ s = "") :
    Validator eid s = Except.ok s := by
  simp [Validator, h]

theorem escapeListValues_error_iff (vs : List String) :
    (∃ e, escapeListValues vs = Except.error e) ↔ "" ∈ vs := by
  induction vs with
  | nil => simp [escapeListValues]
  | cons v rest ih =>
    by_cases hv : v = ""
    · subst hv
      simp [escapeListValues, Validator]
    · rw [escapeListValues, Validator_ok _ _ hv]
      rcases hr : escapeListValues rest with e | parts
      · simp only [hr]
        constructor
        · intro _; exact List.mem_cons_of_mem _ (ih.mp ⟨e, hr⟩)
        · intro _; exact ⟨e, rfl⟩
      · simp only [hr]
        constructor
        · rintro ⟨e, he⟩; cases he
        · intro hmem
          rcases List.mem_cons.mp hmem with h0 | h0
          · exact absurd h0.symm hv
          · rcases ih.mpr h0 with ⟨e, he⟩
            rw [he] at hr; cases hr

theorem mkParam_error_iff (sp : ParamSpec) :
    (∃ e, mkParam sp = Except.error e) ↔ badSpec sp := by
  cases sp with
  | single k v =>
    show (∃ e, Param.make k v = Except.error e) ↔ k = "" ∨ v = ""
    by_cases hk : k = ""
    · subst hk
      simp [Param.make, Validator]
    · rw [Param.make, Validator_ok _ _ hk]
      by_cases hv : v = ""
      · subst hv
        simp [Validator, hk]
      · rw [Validator_ok _ _ hv]
        simp [hk, hv]
  | listed k vs =>
    show (∃ e, Param.makeList k vs = Except.error e) ↔ k = "" ∨ "" ∈ vs
    by_cases hk : k = ""
    · subst hk
      simp [Param.makeList, Validator]
    · rw [Param.makeList, Validator_ok _ _ hk]
      rcases hr : escapeListValues vs with e | parts
      · simp only [hr]
        constructor
        · intro _; exact Or.inr ((escapeListValues_error_iff vs).mp ⟨e, hr⟩)
        · intro _; exact ⟨e, rfl⟩
      · simp only [hr]
        constructor
        · rintro ⟨e, he⟩; cases he
        · rintro (h0 | h0)
          · exact absurd h0 hk
          · rcases (escapeListValues_error_iff vs).mpr h0 with ⟨e, he⟩
            rw [he] at hr; cases hr

theorem mkParams_error_iff (specs : List ParamSpec) :
    (∃ e, mkParams specs = Except.error e) ↔ ∃ sp ∈ specs, badSpec sp := by
  induction specs with
  | nil => simp [mkParams]
  | cons sp rest ih =>
    rcases hp : mkParam sp with e | p
    · have hbad : badSpec sp := (mkParam_error_iff sp).mp ⟨e, hp⟩
      simp only [mkParams, hp]
      constructor
      · intro _; exact ⟨sp, List.mem_cons_self _ _, hbad⟩
      · intro _; exact ⟨e, rfl⟩
    · have hgood : ¬ badSpec sp := by
        intro hb
        rcases (mkParam_error_iff sp).mpr hb with ⟨e, he⟩
        rw [he] at hp; cases hp
      simp only [mkParams, hp]
      rcases hr : mkParams rest with e | ps
      · simp only [hr]
        constructor
        · intro _
          rcases ih.mp ⟨e, hr⟩ with ⟨sp', hmem, hb⟩
          exact ⟨sp', List.mem_cons_of_mem _ hmem, hb⟩
        · intro _; exact ⟨e, rfl⟩
      · simp only [hr]
        constructor
        · rintro ⟨e, he⟩; cases he
        · rintro ⟨sp', hmem, hb⟩
          rcases List.mem_cons.mp hmem with h0 | h0
          · subst h0; exact absurd hb hgood
          · rcases ih.mpr ⟨sp', h0, hb⟩ with ⟨e, he⟩
            rw [he] at hr; cases hr

theorem UrlMake_error_iff (base : String) (ps : List Param) :
    (∃ e, Url.make base ps = Except.error e) ↔ base = "" := by
  by_cases hb : base = ""
  · subst hb
    simp [Url.make, Validator]
  · rw [Url.make, Validator_ok _ _ hb]
    simp [hb]

/-- C4: `Url` construction (base plus single- and list-valued parameters)
fails with `InvalidUrl` exactly when the base is empty, some parameter key
is empty, some single-valued parameter value is empty, or some element of a
list-valued parameter is empty; with a non-empty base and non-empty
keys/values/list elements it succeeds.  The check is pure construction:
no network state is involved. -/
theorem url_construction_fails_iff (base : String) (specs : List ParamSpec) :
    (∃ e, buildUrl base specs = Except.error e) ↔
      (base = "" ∨ ∃ sp ∈ specs, badSpec sp) := by
  rcases hp : mkParams specs with e | ps
  · have hbad := (mkParams_error_iff specs).mp ⟨e, hp⟩
    simp only [buildUrl, hp]
    constructor
    · intro _; exact Or.inr hbad
    · intro _; exact ⟨e, rfl⟩
  · have hgood : ¬ ∃ sp ∈ specs, badSpec sp := by
      intro hb
      rcases (mkParams_error_iff specs).mpr hb with ⟨e, he⟩
      rw [he] at hp; cases hp
    simp only [buildUrl, hp]
    rw [UrlMake_error_iff]
    constructor
    · intro h0; exact Or.inl h0
    · rintro (h0 | h0)
      · exact h0
      · exact absurd h0 hgood

/-! ## Retry-bound theorems (claims C2, C3) -/

/-- A retry only happens while the counter is below `max_retries`. -/
theorem decideRetry_lt {rb : RetryBehavior} {c : Nat} {oc : Outcome}
    (h : decideRetry rb c oc = true) : (c : Int) < rb.max_retries := by
  unfold decideRetry at h
  split at h
  · rw [Bool.and_eq_true] at h
    exact of_decide_eq_true h.1
  · exact absurd h (by simp)

/-- Unfolding equation of `runUrl`: it is exactly the completion-handler
loop (retry while `decideRetry` fires, one more attempt each time). -/
theorem runUrl_eq (rb : RetryBehavior) (outs : Nat → Outcome) (c : Nat) :
    runUrl rb outs c =
      if decideRetry rb c (outs c) then
        ((runUrl rb outs (c + 1)).1, (runUrl rb outs (c + 1)).2 + 1)
      else (outs c, 1) := by
  unfold runUrl
  rcases h : rb.max_retries.toNat + 1 - c with _ | k
  · have hc : rb.max_retries.toNat + 1 ≤ c := Nat.le_of_sub_eq_zero h
    have hfalse : decideRetry rb c (outs c) = false := by
      rcases hr : decideRetry rb c (outs c) with _ | _
      · rfl
      · exfalso
        have hlt := decideRetry_lt hr
        have h1 : rb.max_retries ≤ (rb.max_retries.toNat : Int) := Int.self_le_toNat _
        have h3 : ((rb.max_retries.toNat + 1 : Nat) : Int) ≤ (c : Int) := by
          exact_mod_cast Int.ofNat_le.mpr hc
        push_cast at h3
        omega
    simp [runUrlAux, hfalse]
  · have hc : c ≤ rb.max_retries.toNat := by omega
    have hk2 : rb.max_retries.toNat + 1 - (c + 1) = k := by omega
    rw [hk2]
    simp only [runUrlAux]

/-- Attempt-count bound for the fuel-free loop: starting from counter `c`,
at most `max_retries.toNat - c + 1` attempts are issued. -/
theorem runUrlAux_count (rb : RetryBehavior) (outs : Nat → Outcome) :
    ∀ fuel c, (runUrlAux rb outs fuel c).2 ≤ rb.max_retries.toNat - c + 1 := by
  intro fuel
  induction fuel with
  | zero => intro c; simp [runUrlAux]
  | succ k ih =>
    intro c
    simp only [runUrlAux]
    split
    · next hret =>
      have hlt := decideRetry_lt hret
      have hcle : c < rb.max_retries.toNat := by
        have h1 : (0 : Int) ≤ rb.max_retries :=
          le_of_lt (lt_of_le_of_lt (Int.ofNat_nonneg c) hlt)
        have h2 : rb.max_retries = (rb.max_retries.toNat : Int) :=
          (Int.toNat_of_nonneg h1).symm
        rw [h2] at hlt
        exact_mod_cast hlt
      have hrec := ih (c + 1)
      show (runUrlAux rb outs k (c + 1)).2 + 1 ≤ rb.max_retries.toNat - c + 1
      omega
    · show 1 ≤ rb.max_retries.toNat - c + 1
      omega

/-- Once the counter has reached `max_retries`, the decision is always
finalize, whatever the outcome. -/
theorem decideRetry_exhausted (rb : RetryBehavior) (c : Nat) (oc : Outcome)
    (h : rb.max_retries ≤ (c : Int)) : decideRetry rb c oc = false := by
  rcases hr : decideRetry rb c oc with _ | _
  · rfl
  · exact absurd (decideRetry_lt hr) (not_lt.mpr h)

/-- C2: with `max_retries = N ≥ 0` the scheduler issues at most `N + 1`
attempts for a Url; once the per-Url retry counter has reached
`max_retries`, a completed request is always finalized, whatever its
outcome; in particular `max_retries = 0` means the request is never
retried. -/
theorem retry_attempt_bound (rb : RetryBehavior) (outs : Nat → Outcome)
    (h : 0 ≤ rb.max_retries) :
    ((runUrl rb outs 0).2 : Int) ≤ rb.max_retries + 1 ∧
    (rb.max_retries = 0 → (runUrl rb outs 0).2 = 1) ∧
    (∀ (c : Nat) (oc : Outcome), rb.max_retries ≤ (c : Int) →
      decideRetry rb c oc = false) := by
  refine ⟨?_, ?_, ?_⟩
  · have hb := runUrlAux_count rb outs (rb.max_retries.toNat + 1 - 0) 0
    have htn : (rb.max_retries.toNat : Int) = rb.max_retries := Int.toNat_of_nonneg h
    show ((runUrlAux rb outs (rb.max_retries.toNat + 1 - 0) 0).2 : Int) ≤ rb.max_retries + 1
    omega
  · intro h0
    rw [runUrl_eq]
    rw [decideRetry_exhausted rb 0 (outs 0) (by rw [h0]; exact le_refl _)]
    simp
  · intro c oc hc
    exact decideRetry_exhausted rb c oc hc

/-- Witness for `retry_attempt_bound`: an endpoint that always answers
HTTP 429 with an empty body, under `max_retries = 2`, is attempted exactly
three times, within the bound. -/
theorem retry_attempt_bound_witness :
    (0 : Int) ≤ (2 : Int) ∧
    ((runUrl ⟨2, [429], true, 5⟩ (fun _ => ⟨CurlCode.httpReturnedError 429, ""⟩) 0).2 : Int)
      ≤ (2 : Int) + 1 :=
  ⟨by decide,
   (retry_attempt_bound ⟨2, [429], true, 5⟩
     (fun _ => ⟨CurlCode.httpReturnedError 429, ""⟩) (by decide)).1⟩

/-- C3 (code bug): the completion handler retries a request whose transport
failed outright (here `CURLE_COULDNT_CONNECT`, numeric code 7, so no HTTP
status and `http_code = 0 ∉ responses_to_retry = ∅`) merely because its body
is empty and `retry_if_empty_response_data` is set, with retries remaining
(`max_retries = 1`, counter 0).  The spec's Retry Policy Evaluator (§4.3)
and the field's own documentation ("Retry if the HTTP request succeeded,
but contains no data") finalize this request instead. -/
theorem emptyBody_retry_applies_on_transport_failure :
    decideRetry ⟨1, [], true, 0⟩ 0 ⟨CurlCode.otherError 7, ""⟩ = true ∧
    specRetryDecision ⟨1, [], true, 0⟩ 0 ⟨CurlCode.otherError 7, ""⟩ = false := by
  constructor
  · rfl
  · rfl

/-- C6 (code bug): the rate gate stores the time captured *before* its
cooldown sleep into `last_call_ts`, so two successive dispatches can start
closer than the cooldown.  With `timeout = 10` and `last_call_ts = 0`: a
passage entering at `t = 5` sleeps 5 units, dispatches at `t = 10`, releases
the mutex at `t = 10` and records `last_call_ts = 5`; the next passage
entering at `t = 15` (after the release, as the mutex forces) sees 10 units
elapsed, does not sleep, and dispatches at `t = 15` — only 5 units after the
previous dispatch start, violating the claimed `timeout` spacing. -/
theorem rateGate_dispatch_spacing_violation :
    performCurlGate 10 0 5 0 = (10, 10, 5) ∧
    performCurlGate 10 5 15 0 = (15, 15, 15) ∧
    (10 : Int) ≤ 15 ∧ (15 : Int) - 10 < 10 := by
  refine ⟨?_, ?_, by decide, by decide⟩
  · show ((5 : Int) + max (10 - (5 - 0)) 0, 5 + max (10 - (5 - 0)) 0 + 0, (5 : Int)) = (10, 10, 5)
    decide
  · show ((15 : Int) + max (10 - (15 - 5)) 0, 15 + max (10 - (15 - 5)) 0 + 0, (15 : Int)) = (15, 15, 15)
    decide

/-! ## Sorted-params lemmas (claims C5, C9) -/

theorem eqFalse_not {b : Bool} (h : b = false) : ¬ b = true := by
  intro hc
  rw [h] at hc
  exact Bool.noConfusion hc

theorem charListLt_cons (a b : Char) (as bs : List Char) :
    charListLt (a :: as) (b :: bs) =
      if a < b then true else if b < a then false else charListLt as bs := rfl

theorem charListLt_irrefl : ∀ l : List Char, charListLt l l = false := by
  intro l
  induction l with
  | nil => rfl
  | cons a as ih =>
    rw [charListLt_cons, if_neg (lt_irrefl a), if_neg (lt_irrefl a)]
    exact ih

theorem charListLt_asymm : ∀ {l m : List Char},
    charListLt l m = true → charListLt m l = false := by
  intro l
  induction l with
  | nil =>
    intro m h
    cases m with
    | nil => cases h
    | cons b bs => rfl
  | cons a as ih =>
    intro m h
    cases m with
    | nil => cases h
    | cons b bs =>
      rw [charListLt_cons] at h ⊢
      rcases lt_trichotomy a b with hab | hab | hab
      · rw [if_neg (lt_asymm hab), if_pos hab]
      · subst hab
        rw [if_neg (lt_irrefl a), if_neg (lt_irrefl a)] at h ⊢
        exact ih h
      · rw [if_neg (lt_asymm hab), if_pos hab] at h
        cases h

theorem charListLt_trans : ∀ {l m n : List Char}, charListLt l m = true →
    charListLt m n = true → charListLt l n = true := by
  intro l
  induction l with
  | nil =>
    intro m n h1 h2
    cases m with
    | nil => cases h1
    | cons b bs =>
      cases n with
      | nil => cases h2
      | cons c cs => rfl
  | cons a as ih =>
    intro m n h1 h2
    cases m with
    | nil => cases h1
    | cons b bs =>
      cases n with
      | nil => cases h2
      | cons c cs =>
        rw [charListLt_cons] at h1 h2 ⊢
        rcases lt_trichotomy a b with hab | hab | hab
        · rcases lt_trichotomy b c with hbc | hbc | hbc
          · rw [if_pos (lt_trans hab hbc)]
          · subst hbc
            rw [if_pos hab]
          · rw [if_neg (lt_asymm hbc), if_pos hbc] at h2
            cases h2
        · subst hab
          rw [if_neg (lt_irrefl a), if_neg (lt_irrefl a)] at h1
          rcases lt_trichotomy a c with hac | hac | hac
          · rw [if_pos hac]
          · subst hac
            rw [if_neg (lt_irrefl a), if_neg (lt_irrefl a)] at h2 ⊢
            exact ih h1 h2
          · rw [if_neg (lt_asymm hac), if_pos hac] at h2
            cases h2
        · rw [if_neg (lt_asymm hab), if_pos hab] at h1
          cases h1

theorem charListLt_eq_of_not : ∀ {l m : List Char}, charListLt l m = false →
    charListLt m l = false → l = m := by
  intro l
  induction l with
  | nil =>
    intro m h1 _
    cases m with
    | nil => rfl
    | cons b bs => cases h1
  | cons a as ih =>
    intro m h1 h2
    cases m with
    | nil => cases h2
    | cons b bs =>
      rw [charListLt_cons] at h1 h2
      rcases lt_trichotomy a b with hab | hab | hab
      · rw [if_pos hab] at h1
        cases h1
      · subst hab
        rw [if_neg (lt_irrefl a), if_neg (lt_irrefl a)] at h1 h2
        rw [ih h1 h2]
      · rw [if_pos hab] at h2
        cases h2

theorem strLt_irrefl (x : String) : strLt x x = false :=
  charListLt_irrefl x.data

theorem strLt_asymm {x y : String} (h : strLt x y = true) : strLt y x = false :=
  charListLt_asymm h

theorem strLt_trans {x y z : String} (h1 : strLt x y = true)
    (h2 : strLt y z = true) : strLt x z = true :=
  charListLt_trans h1 h2

theorem strLt_eq_of_not {x y : String} (h1 : strLt x y = false)
    (h2 : strLt y x = false) : x = y := by
  cases x with
  | mk xd =>
    cases y with
    | mk yd => exact congrArg String.mk (charListLt_eq_of_not h1 h2)

theorem strLt_trichotomy (x y : String) :
    strLt x y = true ∨ x = y ∨ strLt y x = true := by
  rcases h1 : strLt x y with _ | _
  · rcases h2 : strLt y x with _ | _
    · exact Or.inr (Or.inl (strLt_eq_of_not h1 h2))
    · exact Or.inr (Or.inr rfl)
  · exact Or.inl rfl

theorem strLt_ne {x y : String} (h : strLt x y = true) : x ≠ y := by
  intro he
  subst he
  rw [strLt_irrefl] at h
  exact Bool.noConfusion h

@[simp] theorem keysP_nil : keysP [] = [] := rfl

@[simp] theorem keysP_cons (q : Param) (s : List Param) :
    keysP (q :: s) = q.key :: keysP s := rfl

theorem mem_keysP {k : String} {s : List Param} :
    k ∈ keysP s ↔ ∃ x ∈ s, x.key = k := by
  simp [keysP]

theorem mem_insertP {x p : Param} {s : List Param}
    (h : x ∈ Params.insertP p s) : x = p ∨ x ∈ s := by
  induction s with
  | nil =>
    simp [Params.insertP] at h
    exact Or.inl h
  | cons q s ih =>
    unfold Params.insertP at h
    split at h
    · rcases List.mem_cons.mp h with h' | h'
      · exact Or.inl h'
      · exact Or.inr h'
    · split at h
      · rcases List.mem_cons.mp h with h' | h'
        · exact Or.inr (h' ▸ List.mem_cons_self _ _)
        · rcases ih h' with h2 | h2
          · exact Or.inl h2
          · exact Or.inr (List.mem_cons_of_mem _ h2)
      · exact Or.inr h

theorem insertP_sorted (p : Param) {s : List Param} (hs : SortedKeys s) :
    SortedKeys (Params.insertP p s) := by
  induction s with
  | nil => simp [Params.insertP, SortedKeys]
  | cons q s ih =>
    rcases List.pairwise_cons.mp hs with ⟨hq, hs'⟩
    unfold Params.insertP
    rcases strLt_trichotomy p.key q.key with hlt | heq | hgt
    · rw [if_pos hlt]
      refine List.pairwise_cons.mpr ⟨?_, hs⟩
      intro b hb
      rcases List.mem_cons.mp hb with rfl | hb'
      · exact hlt
      · exact strLt_trans hlt (hq b hb')
    · rw [if_neg (eqFalse_not (heq ▸ strLt_irrefl _)),
        if_neg (eqFalse_not (heq ▸ strLt_irrefl _))]
      exact hs
    · rw [if_neg (eqFalse_not (strLt_asymm hgt)), if_pos hgt]
      refine List.pairwise_cons.mpr ⟨?_, ih hs'⟩
      intro b hb
      rcases mem_insertP hb with rfl | hb'
      · exact hgt
      · exact hq b hb'

theorem insertP_perm_of_not_mem (p : Param) {s : List Param}
    (h : p.key ∉ keysP s) : (Params.insertP p s).Perm (p :: s) := by
  induction s with
  | nil => exact List.Perm.refl _
  | cons q s ih =>
    have hkq : p.key ≠ q.key := by
      intro h0
      exact h (by simp [h0])
    have hks : p.key ∉ keysP s := by
      intro h0
      exact h (by simp [h0])
    unfold Params.insertP
    rcases strLt_trichotomy p.key q.key with hlt | heq | hgt
    · rw [if_pos hlt]
    · exact absurd heq hkq
    · rw [if_neg (eqFalse_not (strLt_asymm hgt)), if_pos hgt]
      exact ((ih hks).cons q).trans (List.Perm.swap p q s)

theorem insertP_eq_of_mem_key (p : Param) {s : List Param} (hs : SortedKeys s)
    (h : p.key ∈ keysP s) : Params.insertP p s = s := by
  induction s with
  | nil => simp at h
  | cons q s ih =>
    rcases List.pairwise_cons.mp hs with ⟨hq, hs'⟩
    unfold Params.insertP
    rcases List.mem_cons.mp (by simpa using h) with heq | hmem
    · rw [if_neg (eqFalse_not (heq ▸ strLt_irrefl _)),
        if_neg (eqFalse_not (heq ▸ strLt_irrefl _))]
    · have hgt : strLt q.key p.key = true := by
        rcases mem_keysP.mp hmem with ⟨x, hx, hxk⟩
        exact hxk ▸ hq x hx
      rw [if_neg (eqFalse_not (strLt_asymm hgt)), if_pos hgt, ih hs' hmem]

theorem keysP_nodup_of_sorted {s : List Param} (hs : SortedKeys s) :
    (keysP s).Nodup := by
  have h1 : (keysP s).Pairwise (fun k1 k2 => strLt k1 k2 = true) :=
    List.pairwise_map.mpr hs
  exact List.Pairwise.imp (fun h => strLt_ne h) h1

theorem foldl_insertP_sorted (l : List Param) :
    ∀ s : List Param, SortedKeys s →
      SortedKeys (l.foldl (fun s p => Params.insertP p s) s) := by
  induction l with
  | nil => intro s hs; exact hs
  | cons p l ih =>
    intro s hs
    exact ih _ (insertP_sorted p hs)

theorem ofList_sorted (l : List Param) : SortedKeys (Params.ofList l) :=
  foldl_insertP_sorted l [] (by simp [SortedKeys])

theorem mem_key_insertP_self (p : Param) {s : List Param} (hs : SortedKeys s) :
    p.key ∈ keysP (Params.insertP p s) := by
  by_cases h : p.key ∈ keysP s
  · rw [insertP_eq_of_mem_key p hs h]
    exact h
  · have hperm := (insertP_perm_of_not_mem p h).map Param.key
    exact hperm.mem_iff.mpr (by simp)

theorem foldl_insertP_perm (l : List Param) :
    ∀ s : List Param, (keysP l).Nodup → (∀ q ∈ l, q.key ∉ keysP s) →
      (l.foldl (fun s p => Params.insertP p s) s).Perm (s ++ l) := by
  induction l with
  | nil => intro s _ _; simp
  | cons p l ih =>
    intro s hnd hdis
    have hpk : p.key ∉ keysP s := hdis p (List.mem_cons_self _ _)
    have hnd' : (keysP l).Nodup := (List.nodup_cons.mp (by simpa using hnd)).2
    have hpl : p.key ∉ keysP l := (List.nodup_cons.mp (by simpa using hnd)).1
    have hdis' : ∀ q ∈ l, q.key ∉ keysP (Params.insertP p s) := by
      intro q hq hmem
      have hperm := (insertP_perm_of_not_mem p hpk).map Param.key
      have h2 : q.key ∈ keysP (p :: s) := hperm.mem_iff.mp hmem
      rcases List.mem_cons.mp (by simpa using h2) with h0 | h0
      · exact hpl (h0 ▸ mem_keysP.mpr ⟨q, hq, rfl⟩)
      · exact hdis q (List.mem_cons_of_mem _ hq) h0
    show (l.foldl (fun s p => Params.insertP p s) (Params.insertP p s)).Perm
      (s ++ p :: l)
    exact (ih _ hnd' hdis').trans
      (((insertP_perm_of_not_mem p hpk).append_right l).trans List.perm_middle.symm)

theorem ofList_perm {l : List Param} (hnd : (keysP l).Nodup) :
    (Params.ofList l).Perm l := by
  have := foldl_insertP_perm l [] hnd (by simp)
  simpa [Params.ofList] using this

/-- C5: two `Params` containers built by inserting the same key/value pairs
in any order are the same sorted container, and the Urls built from them
are equal, string-equal and hash-equal. -/
theorem params_order_independent (base : String) (l₁ l₂ : List Param)
    (hperm : l₁.Perm l₂) (hnd : (keysP l₁).Nodup) :
    Params.ofList l₁ = Params.ofList l₂ ∧
    Url.make base (Params.ofList l₁) = Url.make base (Params.ofList l₂) ∧
    (∀ u₁ u₂, Url.make base (Params.ofList l₁) = Except.ok u₁ →
      Url.make base (Params.ofList l₂) = Except.ok u₂ →
      u₁.impl = u₂.impl ∧ u₁.hashVal = u₂.hashVal) := by
  have hkeys : (keysP l₁).Perm (keysP l₂) := hperm.map Param.key
  have hnd₂ : (keysP l₂).Nodup := hkeys.nodup_iff.mp hnd
  have h1 : (Params.ofList l₁).Perm (Params.ofList l₂) :=
    ((ofList_perm hnd).trans hperm).trans (ofList_perm hnd₂).symm
  haveI : IsAntisymm Param keyLt :=
    ⟨fun _ _ ha hb => absurd ((strLt_asymm ha).symm.trans hb) Bool.false_ne_true⟩
  have heq : Params.ofList l₁ = Params.ofList l₂ :=
    List.eq_of_perm_of_sorted h1 (ofList_sorted l₁) (ofList_sorted l₂)
  refine ⟨heq, by rw [heq], ?_⟩
  intro u₁ u₂ h₁ h₂
  rw [heq, h₂] at h₁
  cases h₁
  exact ⟨rfl, rfl⟩

/-- Witness for `params_order_independent`: the spec's own example,
`{"b":"2","a":"1"}` versus `{"a":"1","b":"2"}`. -/
theorem params_order_independent_witness :
    Params.ofList [⟨"b", "2"⟩, ⟨"a", "1"⟩] = Params.ofList [⟨"a", "1"⟩, ⟨"b", "2"⟩] ∧
    Url.make "base" (Params.ofList [⟨"b", "2"⟩, ⟨"a", "1"⟩]) =
      Url.make "base" (Params.ofList [⟨"a", "1"⟩, ⟨"b", "2"⟩]) :=
  ⟨(params_order_independent "base" _ _ (by decide) (by decide)).1,
   (params_order_independent "base" _ _ (by decide) (by decide)).2.1⟩

/-- C9: duplicate keys are silently deduplicated.  Inserting a param whose
key is already present leaves the container unchanged; a built container has
pairwise-distinct keys; the first inserted value wins against a later
same-key insertion; and Url construction from any such container raises no
error when the base is non-empty. -/
theorem params_duplicate_keys_dedup (l : List Param) (p q : Param) (base : String)
    (hmem : p.key ∈ keysP (Params.ofList l)) (hkey : q.key = p.key)
    (hbase : ¬ base = "") :
    Params.insertP p (Params.ofList l) = Params.ofList l ∧
    (keysP (Params.ofList l)).Nodup ∧
    Params.ofList (l ++ [p, q]) = Params.ofList (l ++ [p]) ∧
    (∃ u, Url.make base (Params.ofList l) = Except.ok u) := by
  refine ⟨insertP_eq_of_mem_key p (ofList_sorted l) hmem,
    keysP_nodup_of_sorted (ofList_sorted l), ?_, ?_⟩
  · show (l ++ [p, q]).foldl (fun s p => Params.insertP p s) [] =
      (l ++ [p]).foldl (fun s p => Params.insertP p s) []
    rw [List.foldl_append, List.foldl_append]
    show Params.insertP q (Params.insertP p (Params.ofList l)) =
      Params.insertP p (Params.ofList l)
    have hsorted := insertP_sorted p (ofList_sorted l)
    have hin : q.key ∈ keysP (Params.insertP p (Params.ofList l)) :=
      hkey ▸ mem_key_insertP_self p (ofList_sorted l)
    exact insertP_eq_of_mem_key q hsorted hin
  · rw [Url.make, Validator_ok _ _ hbase]
    exact ⟨_, rfl⟩

/-- Witness for `params_duplicate_keys_dedup` at concrete params: key `"a"`
is already present, and a second insertion with key `"a"` is a no-op. -/
theorem params_duplicate_keys_dedup_witness :
    Params.insertP ⟨"a", "9"⟩ (Params.ofList [⟨"a", "1"⟩, ⟨"b", "2"⟩]) =
      Params.ofList [⟨"a", "1"⟩, ⟨"b", "2"⟩] ∧
    (keysP (Params.ofList [⟨"a", "1"⟩, ⟨"b", "2"⟩])).Nodup ∧
    Params.ofList ([⟨"a", "1"⟩, ⟨"b", "2"⟩] ++ [⟨"a", "9"⟩, ⟨"a", "7"⟩]) =
      Params.ofList ([⟨"a", "1"⟩, ⟨"b", "2"⟩] ++ [⟨"a", "9"⟩]) ∧
    (∃ u, Url.make "base" (Params.ofList [⟨"a", "1"⟩, ⟨"b", "2"⟩]) = Except.ok u) :=
  params_duplicate_keys_dedup [⟨"a", "1"⟩, ⟨"b", "2"⟩] ⟨"a", "9"⟩ ⟨"a", "7"⟩ "base"
    (by decide) (by decide) (by decide)

/-! ## Handle-pool lemmas (claims C7, C8) -/

@[simp] theorem keysH_nil : keysH [] = [] := rfl

@[simp] theorem keysH_cons (e : Url × Nat) (l : List (Url × Nat)) :
    keysH (e :: l) = e.1 :: keysH l := rfl

@[simp] theorem keysH_append (l1 l2 : List (Url × Nat)) :
    keysH (l1 ++ l2) = keysH l1 ++ keysH l2 := by
  simp [keysH]

theorem mem_keysH {u : Url} {l : List (Url × Nat)} :
    u ∈ keysH l ↔ ∃ h, (u, h) ∈ l := by
  constructor
  · intro hm
    rcases List.mem_map.mp hm with ⟨⟨v, hh⟩, he, hfst⟩
    cases hfst
    exact ⟨hh, he⟩
  · rintro ⟨h, hm⟩
    exact List.mem_map.mpr ⟨(u, h), hm, rfl⟩

theorem extractKey_none_iff (u : Url) :
    ∀ l : List (Url × Nat), (extractKey u l).1 = none ↔ u ∉ keysH l := by
  intro l
  induction l with
  | nil => simp [extractKey]
  | cons e rest ih =>
    obtain ⟨v, hh⟩ := e
    by_cases hv : v = u
    · subst hv
      simp [extractKey]
    · simp only [extractKey, if_neg hv, keysH_cons]
      constructor
      · intro h1 h2
        rcases List.mem_cons.mp h2 with h3 | h3
        · exact hv h3.symm
        · exact (ih.mp h1) h3
      · intro h2
        exact ih.mpr (fun h3 => h2 (List.mem_cons_of_mem _ h3))

theorem extractKey_mem {u : Url} {hh : Nat} :
    ∀ {l : List (Url × Nat)}, (extractKey u l).1 = some hh → (u, hh) ∈ l := by
  intro l
  induction l with
  | nil => intro h; simp [extractKey] at h
  | cons e rest ih =>
    obtain ⟨v, h2⟩ := e
    intro h
    by_cases hv : v = u
    · subst hv
      simp [extractKey] at h
      subst h
      exact List.mem_cons_self _ _
    · simp only [extractKey, if_neg hv] at h
      exact List.mem_cons_of_mem _ (ih h)

theorem extractKey_unique {u : Url} {hh : Nat} :
    ∀ {l : List (Url × Nat)}, (keysH l).Nodup → (u, hh) ∈ l →
      (extractKey u l).1 = some hh := by
  intro l
  induction l with
  | nil => intro _ h; exact absurd h (List.not_mem_nil _)
  | cons e rest ih =>
    obtain ⟨v, h2⟩ := e
    intro hnd hm
    have hnd' := List.nodup_cons.mp (by simpa using hnd)
    by_cases hv : v = u
    · subst hv
      rcases List.mem_cons.mp hm with h3 | h3
      · have hval : hh = h2 := congrArg Prod.snd h3
        subst hval
        simp [extractKey]
      · exact absurd (mem_keysH.mpr ⟨hh, h3⟩) hnd'.1
    · rcases List.mem_cons.mp hm with h3 | h3
      · exact absurd (congrArg Prod.fst h3).symm hv
      · simp only [extractKey, if_neg hv]
        exact ih hnd'.2 h3

theorem extractKey_sub {u : Url} :
    ∀ {l : List (Url × Nat)} {e : Url × Nat}, e ∈ (extractKey u l).2 → e ∈ l := by
  intro l
  induction l with
  | nil => intro e h; simp [extractKey] at h
  | cons f rest ih =>
    obtain ⟨v, h2⟩ := f
    intro e h
    by_cases hv : v = u
    · subst hv
      simp [extractKey] at h
      exact List.mem_cons_of_mem _ h
    · simp only [extractKey, if_neg hv] at h
      rcases List.mem_cons.mp h with h3 | h3
      · exact h3 ▸ List.mem_cons_self _ _
      · exact List.mem_cons_of_mem _ (ih h3)

theorem extractKey_preserve {u v : Url} {hh : Nat} (hne : v ≠ u) :
    ∀ {l : List (Url × Nat)}, (v, hh) ∈ l → (v, hh) ∈ (extractKey u l).2 := by
  intro l
  induction l with
  | nil => intro h; exact absurd h (List.not_mem_nil _)
  | cons f rest ih =>
    obtain ⟨w, h2⟩ := f
    intro hm
    by_cases hw : w = u
    · subst hw
      simp only [extractKey, if_pos rfl]
      rcases List.mem_cons.mp hm with h3 | h3
      · exact absurd (congrArg Prod.fst h3) hne
      · exact h3
    · simp only [extractKey, if_neg hw]
      rcases List.mem_cons.mp hm with h3 | h3
      · exact h3 ▸ List.mem_cons_self _ _
      · exact List.mem_cons_of_mem _ (ih h3)

theorem extractKey_keys_sub {u w : Url} {l : List (Url × Nat)}
    (h : w ∈ keysH (extractKey u l).2) : w ∈ keysH l := by
  rcases mem_keysH.mp h with ⟨hh, hm⟩
  exact mem_keysH.mpr ⟨hh, extractKey_sub hm⟩

theorem extractKey_keys_nodup {u : Url} :
    ∀ {l : List (Url × Nat)}, (keysH l).Nodup → (keysH (extractKey u l).2).Nodup := by
  intro l
  induction l with
  | nil => intro _; simp [extractKey]
  | cons f rest ih =>
    obtain ⟨v, h2⟩ := f
    intro hnd
    have hnd' := List.nodup_cons.mp (by simpa using hnd)
    by_cases hv : v = u
    · subst hv
      simpa [extractKey] using hnd'.2
    · simp only [extractKey, if_neg hv, keysH_cons]
      refine List.nodup_cons.mpr ⟨?_, ih hnd'.2⟩
      intro hmem
      exact hnd'.1 (extractKey_keys_sub hmem)

theorem extractKey_not_mem_key {u : Url} :
    ∀ {l : List (Url × Nat)} {hh : Nat}, (keysH l).Nodup →
      (extractKey u l).1 = some hh → u ∉ keysH (extractKey u l).2 := by
  intro l
  induction l with
  | nil => intro hh _ h; simp [extractKey] at h
  | cons f rest ih =>
    obtain ⟨v, h2⟩ := f
    intro hh hnd hsome
    have hnd' := List.nodup_cons.mp (by simpa using hnd)
    by_cases hv : v = u
    · subst hv
      simp only [extractKey, if_pos rfl]
      exact hnd'.1
    · simp only [extractKey, if_neg hv] at hsome ⊢
      rw [keysH_cons]
      intro hmem
      rcases List.mem_cons.mp hmem with h3 | h3
      · exact hv h3.symm
      · exact ih hnd'.2 hsome h3

theorem step1_next : ∀ (us : List Url) (p : Pool), (step1 us p).next = p.next := by
  intro us
  induction us with
  | nil => intro p; rfl
  | cons u rest ih =>
    intro p
    simp only [step1]
    by_cases hav : p.available = []
    · rw [if_pos hav]
    · rw [if_neg hav]
      rcases hE : extractKey u p.available with ⟨found, avail'⟩
      cases found with
      | some hdl =>
        simp only [hE]
        rw [ih]
      | none =>
        simp only [hE]
        rw [ih]

theorem step1_inUse_mono {e : Url × Nat} :
    ∀ (us : List Url) (p : Pool), e ∈ p.inUse → e ∈ (step1 us p).inUse := by
  intro us
  induction us with
  | nil => intro p h; exact h
  | cons u rest ih =>
    intro p h
    simp only [step1]
    by_cases hav : p.available = []
    · rw [if_pos hav]; exact h
    · rw [if_neg hav]
      rcases hE : extractKey u p.available with ⟨found, avail'⟩
      cases found with
      | some hdl =>
        simp only [hE]
        exact ih _ (List.mem_append_left _ h)
      | none =>
        simp only [hE]
        exact ih _ h

theorem step1_avail_sub {e : Url × Nat} :
    ∀ (us : List Url) (p : Pool), e ∈ (step1 us p).available → e ∈ p.available := by
  intro us
  induction us with
  | nil => intro p h; exact h
  | cons u rest ih =>
    intro p h
    simp only [step1] at h
    by_cases hav : p.available = []
    · rw [if_pos hav] at h; exact h
    · rw [if_neg hav] at h
      rcases hE : extractKey u p.available with ⟨found, avail'⟩
      cases found with
      | some hdl =>
        simp only [hE] at h
        have h2 : e ∈ avail' := ih _ h
        have h3 : e ∈ (extractKey u p.available).2 := by
          rw [hE]
          exact h2
        exact extractKey_sub h3
      | none =>
        simp only [hE] at h
        exact ih _ h

theorem step1_avail_keys_nodup :
    ∀ (us : List Url) (p : Pool), (keysH p.available).Nodup →
      (keysH (step1 us p).available).Nodup := by
  intro us
  induction us with
  | nil => intro p h; exact h
  | cons u rest ih =>
    intro p h
    simp only [step1]
    by_cases hav : p.available = []
    · rw [if_pos hav]; exact h
    · rw [if_neg hav]
      rcases hE : extractKey u p.available with ⟨found, avail'⟩
      cases found with
      | some hdl =>
        simp only [hE]
        refine ih _ ?_
        have := extractKey_keys_nodup (u := u) h
        rw [hE] at this
        exact this
      | none =>
        simp only [hE]
        exact ih _ h

theorem step1_inUse_from {e : Url × Nat} :
    ∀ (us : List Url) (p : Pool), e ∈ (step1 us p).inUse →
      e ∈ p.inUse ∨ (e.1 ∈ us ∧ e ∈ p.available) := by
  intro us
  induction us with
  | nil => intro p h; exact Or.inl h
  | cons u rest ih =>
    intro p h
    simp only [step1] at h
    by_cases hav : p.available = []
    · rw [if_pos hav] at h; exact Or.inl h
    · rw [if_neg hav] at h
      rcases hE : extractKey u p.available with ⟨found, avail'⟩
      cases found with
      | some hdl =>
        simp only [hE] at h
        rcases ih _ h with h1 | h1
        · rcases List.mem_append.mp h1 with h2 | h2
          · exact Or.inl h2
          · have h3 : e = (u, hdl) := by simpa using h2
            refine Or.inr ⟨by rw [h3]; exact List.mem_cons_self _ _, ?_⟩
            rw [h3]
            exact extractKey_mem (hE ▸ rfl)
        · refine Or.inr ⟨List.mem_cons_of_mem _ h1.1, ?_⟩
          have h2 : e ∈ (extractKey u p.available).2 := by
            rw [hE]
            exact h1.2
          exact extractKey_sub h2
      | none =>
        simp only [hE] at h
        rcases ih _ h with h1 | h1
        · exact Or.inl h1
        · exact Or.inr ⟨List.mem_cons_of_mem _ h1.1, h1.2⟩

theorem step1_exact_match {u : Url} {hdl : Nat} :
    ∀ (us : List Url) (p : Pool), us.Nodup → (keysH p.available).Nodup →
      u ∈ us → (u, hdl) ∈ p.available → (u, hdl) ∈ (step1 us p).inUse := by
  intro us
  induction us with
  | nil => intro p _ _ hm _; exact absurd hm (List.not_mem_nil _)
  | cons w rest ih =>
    intro p hndu hnda hm hav
    have hne : p.available ≠ [] := by
      intro h0
      rw [h0] at hav
      exact absurd hav (List.not_mem_nil _)
    simp only [step1]
    rw [if_neg hne]
    rcases hE : extractKey w p.available with ⟨found, avail'⟩
    by_cases hw : w = u
    · subst hw
      have hsome : (extractKey w p.available).1 = some hdl :=
        extractKey_unique hnda hav
      rw [hE] at hsome
      cases found with
      | some hdl2 =>
        have : hdl2 = hdl := by simpa using hsome
        subst this
        simp only [hE]
        exact step1_inUse_mono rest _
          (List.mem_append_right _ (List.mem_cons_self _ _))
      | none => cases hsome
    · have hmem : u ∈ rest := by
        rcases List.mem_cons.mp hm with h0 | h0
        · exact absurd h0.symm hw
        · exact h0
      cases found with
      | some hdl2 =>
        simp only [hE]
        refine ih _ (List.nodup_cons.mp hndu).2 ?_ hmem ?_
        · have := extractKey_keys_nodup (u := w) hnda
          rw [hE] at this
          exact this
        · have := extractKey_preserve (fun h0 => hw h0.symm) hav
          rw [hE] at this
          exact this
      | none =>
        simp only [hE]
        exact ih _ (List.nodup_cons.mp hndu).2 hnda hmem hav

theorem step1_covers :
    ∀ (us : List Url) (p : Pool), ∀ u ∈ us,
      u ∈ keysH (step1 us p).inUse ∨ u ∉ keysH (step1 us p).available := by
  intro us
  induction us with
  | nil => intro p u hm; exact absurd hm (List.not_mem_nil _)
  | cons w rest ih =>
    intro p u hm
    simp only [step1]
    by_cases hav : p.available = []
    · rw [if_pos hav]
      exact Or.inr (by rw [hav]; simp)
    · rw [if_neg hav]
      rcases hE : extractKey w p.available with ⟨found, avail'⟩
      rcases List.mem_cons.mp hm with h0 | h0
      · subst h0
        cases found with
        | some hdl =>
          simp only [hE]
          exact Or.inl (mem_keysH.mpr ⟨hdl, step1_inUse_mono rest _
            (List.mem_append_right _ (List.mem_cons_self _ _))⟩)
        | none =>
          simp only [hE]
          have hnm : u ∉ keysH p.available := by
            have := (extractKey_none_iff u p.available).mp (by rw [hE])
            exact this
          refine Or.inr ?_
          intro hc
          rcases mem_keysH.mp hc with ⟨hh, hmem⟩
          exact hnm (mem_keysH.mpr ⟨hh, step1_avail_sub rest _ hmem⟩)
      · cases found with
        | some hdl =>
          simp only [hE]
          exact ih _ u h0
        | none =>
          simp only [hE]
          exact ih _ u h0

theorem step1_disj :
    ∀ (us : List Url) (p : Pool), (keysH p.available).Nodup →
      (∀ e ∈ p.inUse, e.1 ∉ keysH p.available) →
      ∀ e ∈ (step1 us p).inUse, e.1 ∉ keysH (step1 us p).available := by
  intro us
  induction us with
  | nil => intro p _ hd e he; exact hd e he
  | cons w rest ih =>
    intro p hnda hd
    simp only [step1]
    by_cases hav : p.available = []
    · rw [if_pos hav]; exact hd
    · rw [if_neg hav]
      rcases hE : extractKey w p.available with ⟨found, avail'⟩
      cases found with
      | some hdl =>
        simp only [hE]
        refine ih _ ?_ ?_
        · have := extractKey_keys_nodup (u := w) hnda
          rw [hE] at this
          exact this
        · intro e he
          rcases List.mem_append.mp he with h1 | h1
          · intro hc
            exact hd e h1 (extractKey_keys_sub (u := w) (hE ▸ hc))
          · have h2 : e = (w, hdl) := by simpa using h1
            rw [h2]
            have := extractKey_not_mem_key (u := w) (l := p.available) hnda
              (by rw [hE])
            rw [hE] at this
            exact this
      | none =>
        simp only [hE]
        exact ih _ hnda hd

theorem step1_inUse_keys_nodup :
    ∀ (us : List Url) (p : Pool), us.Nodup → (keysH p.inUse).Nodup →
      (∀ u ∈ us, u ∉ keysH p.inUse) → (keysH (step1 us p).inUse).Nodup := by
  intro us
  induction us with
  | nil => intro p _ h _; exact h
  | cons w rest ih =>
    intro p hndu hndi hdis
    simp only [step1]
    by_cases hav : p.available = []
    · rw [if_pos hav]; exact hndi
    · rw [if_neg hav]
      rcases hE : extractKey w p.available with ⟨found, avail'⟩
      cases found with
      | some hdl =>
        simp only [hE]
        refine ih _ (List.nodup_cons.mp hndu).2 ?_ ?_
        · rw [keysH_append]
          refine List.Nodup.append hndi (by simp) ?_
          intro a ha hb
          have : a = w := by simpa using hb
          subst this
          exact hdis a (List.mem_cons_self _ _) ha
        · intro u hu
          rw [keysH_append]
          intro hc
          rcases List.mem_append.mp hc with h1 | h1
          · exact hdis u (List.mem_cons_of_mem _ hu) h1
          · have : u = w := by simpa using h1
            subst this
            exact (List.nodup_cons.mp hndu).1 hu
      | none =>
        simp only [hE]
        exact ih _ (List.nodup_cons.mp hndu).2 hndi
          (fun u hu => hdis u (List.mem_cons_of_mem _ hu))

theorem step2_inUse_mono {e : Url × Nat} :
    ∀ (us : List Url) (p : Pool), e ∈ p.inUse → e ∈ (step2 us p).inUse := by
  intro us
  induction us with
  | nil => intro p h; exact h
  | cons w rest ih =>
    intro p h
    simp only [step2]
    by_cases hmem : w ∈ keysH p.inUse
    · rw [if_pos hmem]
      exact ih _ h
    · rw [if_neg hmem]
      rcases hA : p.available with _ | ⟨⟨k, hdl⟩, avail'⟩
      · simp only []
        exact ih _ (List.mem_append_left _ h)
      · simp only []
        exact ih _ (List.mem_append_left _ h)

theorem step2_keys_mono {u : Url} (us : List Url) (p : Pool)
    (h : u ∈ keysH p.inUse) : u ∈ keysH (step2 us p).inUse := by
  rcases mem_keysH.mp h with ⟨hh, hm⟩
  exact mem_keysH.mpr ⟨hh, step2_inUse_mono us p hm⟩

theorem step2_covers :
    ∀ (us : List Url) (p : Pool), ∀ u ∈ us, u ∈ keysH (step2 us p).inUse := by
  intro us
  induction us with
  | nil => intro p u hm; exact absurd hm (List.not_mem_nil _)
  | cons w rest ih =>
    intro p u hm
    simp only [step2]
    by_cases hmem : w ∈ keysH p.inUse
    · rw [if_pos hmem]
      rcases List.mem_cons.mp hm with h0 | h0
      · subst h0
        exact step2_keys_mono rest p hmem
      · exact ih _ u h0
    · rw [if_neg hmem]
      rcases List.mem_cons.mp hm with h0 | h0
      · subst h0
        rcases hA : p.available with _ | ⟨⟨k, hdl⟩, avail'⟩
        · simp only []
          exact step2_keys_mono rest _ (by rw [keysH_append]; simp)
        · simp only []
          exact step2_keys_mono rest _ (by rw [keysH_append]; simp)
      · rcases hA : p.available with _ | ⟨⟨k, hdl⟩, avail'⟩
        · simp only []
          exact ih _ u h0
        · simp only []
          exact ih _ u h0

theorem step2_inUse_from {e : Url × Nat} :
    ∀ (us : List Url) (p : Pool), e ∈ (step2 us p).inUse →
      e ∈ p.inUse ∨ e.1 ∈ us := by
  intro us
  induction us with
  | nil => intro p h; exact Or.inl h
  | cons w rest ih =>
    intro p h
    simp only [step2] at h
    by_cases hmem : w ∈ keysH p.inUse
    · rw [if_pos hmem] at h
      rcases ih _ h with h1 | h1
      · exact Or.inl h1
      · exact Or.inr (List.mem_cons_of_mem _ h1)
    · rw [if_neg hmem] at h
      rcases hA : p.available with _ | ⟨⟨k, hdl⟩, avail'⟩ <;>
        · rw [hA] at h
          dsimp only at h
          rcases ih _ h with h1 | h1
          · rcases List.mem_append.mp h1 with h2 | h2
            · exact Or.inl h2
            · have h4 := List.mem_singleton.mp h2
              have h3 : e.1 = w := by rw [h4]
              exact Or.inr (h3 ▸ List.mem_cons_self _ _)
          · exact Or.inr (List.mem_cons_of_mem _ h1)

theorem step2_next_mono :
    ∀ (us : List Url) (p : Pool), p.next ≤ (step2 us p).next := by
  intro us
  induction us with
  | nil => intro p; exact le_refl _
  | cons w rest ih =>
    intro p
    simp only [step2]
    by_cases hmem : w ∈ keysH p.inUse
    · rw [if_pos hmem]
      exact ih _
    · rw [if_neg hmem]
      rcases hA : p.available with _ | ⟨⟨k, hdl⟩, avail'⟩
      · dsimp only
        exact le_trans (Nat.le_succ _)
          (ih ⟨[], p.inUse ++ [(w, p.next)], p.next + 1⟩)
      · dsimp only
        exact ih ⟨avail', p.inUse ++ [(w, hdl)], p.next⟩

theorem step2_avail_nil :
    ∀ (us : List Url) (p : Pool), p.available = [] →
      (step2 us p).available = [] := by
  intro us
  induction us with
  | nil => intro p h; exact h
  | cons w rest ih =>
    intro p h
    simp only [step2]
    by_cases hmem : w ∈ keysH p.inUse
    · rw [if_pos hmem]
      exact ih _ h
    · rw [if_neg hmem, h]
      simp only []
      exact ih _ rfl

theorem step2_alloc_drain :
    ∀ (us : List Url) (p : Pool), p.next < (step2 us p).next →
      (step2 us p).available = [] := by
  intro us
  induction us with
  | nil => intro p h; exact absurd h (lt_irrefl _)
  | cons w rest ih =>
    intro p h
    simp only [step2] at h ⊢
    by_cases hmem : w ∈ keysH p.inUse
    · rw [if_pos hmem] at h ⊢
      exact ih _ h
    · rw [if_neg hmem] at h ⊢
      rcases hA : p.available with _ | ⟨⟨k, hdl⟩, avail'⟩
      · rw [hA] at h
        dsimp only at h ⊢
        exact step2_avail_nil rest _ rfl
      · rw [hA] at h
        dsimp only at h ⊢
        exact ih _ h

theorem step2_inUse_keys_nodup :
    ∀ (us : List Url) (p : Pool), (keysH p.inUse).Nodup →
      (keysH (step2 us p).inUse).Nodup := by
  intro us
  induction us with
  | nil => intro p h; exact h
  | cons w rest ih =>
    intro p h
    simp only [step2]
    by_cases hmem : w ∈ keysH p.inUse
    · rw [if_pos hmem]
      exact ih _ h
    · rw [if_neg hmem]
      rcases hA : p.available with _ | ⟨⟨k, hdl⟩, avail'⟩ <;>
        · simp only []
          refine ih _ ?_
          rw [keysH_append]
          refine List.Nodup.append h (by simp) ?_
          intro a ha hb
          have : a = w := by simpa using hb
          subst this
          exact hmem ha

theorem step2_disj :
    ∀ (us : List Url) (p : Pool),
      (∀ e ∈ p.inUse, e.1 ∉ keysH p.available) →
      (∀ u ∈ us, u ∉ keysH p.inUse → u ∉ keysH p.available) →
      ∀ e ∈ (step2 us p).inUse, e.1 ∉ keysH (step2 us p).available := by
  intro us
  induction us with
  | nil => intro p hd _ e he; exact hd e he
  | cons w rest ih =>
    intro p hd h2
    simp only [step2]
    by_cases hmem : w ∈ keysH p.inUse
    · rw [if_pos hmem]
      exact ih _ hd (fun u hu => h2 u (List.mem_cons_of_mem _ hu))
    · rw [if_neg hmem]
      have hw : w ∉ keysH p.available := h2 w (List.mem_cons_self _ _) hmem
      rcases hA : p.available with _ | ⟨⟨k, hdl⟩, avail'⟩
      · simp only []
        refine ih _ ?_ ?_
        · intro e _
          simp
        · intro u _ _
          simp
      · simp only []
        have htail : ∀ v : Url, v ∉ keysH p.available → v ∉ keysH avail' := by
          intro v hv hc
          exact hv (by rw [hA, keysH_cons]; exact List.mem_cons_of_mem _ hc)
        refine ih _ ?_ ?_
        · intro e he
          rcases List.mem_append.mp he with h1 | h1
          · exact htail _ (hd e h1)
          · have h3 : e = (w, hdl) := by simpa using h1
            rw [h3]
            exact htail _ hw
        · intro u hu hnu
          have hnu2 : u ∉ keysH p.inUse := by
            intro hc
            exact hnu (by rw [keysH_append]; exact List.mem_append_left _ hc)
          exact htail _ (h2 u (List.mem_cons_of_mem _ hu) hnu2)

/-- C7: the three-tier acquire policy.  Starting between batches (empty
in-use set) with a well-formed idle pool and distinct requested Urls:
every requested Url ends with exactly one in-use handle; an idle handle
already bound to a requested Url is reused for that exact Url; and a
brand-new handle was allocated (the counter advanced) only if the idle
pool ends fully drained. -/
theorem handle_acquisition_policy (urls : List Url) (p : Pool)
    (h0 : p.inUse = []) (h1 : urls.Nodup) (h2 : (keysH p.available).Nodup) :
    (∀ u ∈ urls, (keysH (getAvailableHandles urls p).inUse).count u = 1) ∧
    (∀ (u : Url) (hdl : Nat), u ∈ urls → (u, hdl) ∈ p.available →
      (u, hdl) ∈ (getAvailableHandles urls p).inUse) ∧
    (p.next < (getAvailableHandles urls p).next →
      (getAvailableHandles urls p).available = []) := by
  have hstep1 : (keysH (step1 urls p).inUse).Nodup :=
    step1_inUse_keys_nodup urls p h1 (by rw [h0]; exact List.nodup_nil)
      (by rw [h0]; intro u _; exact List.not_mem_nil u)
  have hnodup : (keysH (getAvailableHandles urls p).inUse).Nodup :=
    step2_inUse_keys_nodup urls _ hstep1
  refine ⟨?_, ?_, ?_⟩
  · intro u hu
    have hmem : u ∈ keysH (getAvailableHandles urls p).inUse :=
      step2_covers urls _ u hu
    exact List.count_eq_one_of_mem hnodup hmem
  · intro u hdl hu hav
    exact step2_inUse_mono urls _ (step1_exact_match urls p h1 h2 hu hav)
  · intro hlt
    have hne : (step1 urls p).next = p.next := step1_next urls p
    exact step2_alloc_drain urls _ (by rw [hne]; exact hlt)

/-- Witness for `handle_acquisition_policy`: pool holding one idle handle
bound to `"a"`; requesting `"a"` and `"b"` reuses the exact match for `"a"`
and allocates for `"b"`, draining the idle pool. -/
theorem handle_acquisition_policy_witness :
    (keysH (getAvailableHandles [⟨"a"⟩, ⟨"b"⟩] ⟨[(⟨"a"⟩, 0)], [], 1⟩).inUse).count ⟨"a"⟩ = 1 ∧
    (⟨"a"⟩, 0) ∈ (getAvailableHandles [⟨"a"⟩, ⟨"b"⟩] ⟨[(⟨"a"⟩, 0)], [], 1⟩).inUse ∧
    (getAvailableHandles [⟨"a"⟩, ⟨"b"⟩] ⟨[(⟨"a"⟩, 0)], [], 1⟩).available = [] :=
  ⟨(handle_acquisition_policy [⟨"a"⟩, ⟨"b"⟩] ⟨[(⟨"a"⟩, 0)], [], 1⟩ rfl
      (by decide) (by decide)).1 ⟨"a"⟩ (by decide),
   (handle_acquisition_policy [⟨"a"⟩, ⟨"b"⟩] ⟨[(⟨"a"⟩, 0)], [], 1⟩ rfl
      (by decide) (by decide)).2.1 ⟨"a"⟩ 0 (by decide) (by decide),
   (handle_acquisition_policy [⟨"a"⟩, ⟨"b"⟩] ⟨[(⟨"a"⟩, 0)], [], 1⟩ rfl
      (by decide) (by decide)).2.2 (by decide)⟩

/-- After acquiring from a between-batches pool, no in-use key remains in
the idle pool (the precondition under which `unordered_map::merge` moves
every node). -/
theorem acquire_disjoint (urls : List Url) (p : Pool)
    (h0 : p.inUse = []) (h2 : (keysH p.available).Nodup) :
    ∀ e ∈ (getAvailableHandles urls p).inUse,
      e.1 ∉ keysH (getAvailableHandles urls p).available := by
  have hd1 : ∀ e ∈ (step1 urls p).inUse, e.1 ∉ keysH (step1 urls p).available :=
    step1_disj urls p h2 (by rw [h0]; intro e he; exact absurd he (List.not_mem_nil e))
  refine step2_disj urls _ hd1 ?_
  intro u hu hnu
  rcases step1_covers urls p u hu with hc | hc
  · exact absurd hc hnu
  · exact hc

/-- C8: handle release is unconditional.  After a batch acquired from a
between-batches pool, `ClearUsedHandles` moves every in-use handle back to
the idle pool (whatever its request's outcome — the release does not
inspect outcomes at all), leaves the in-use set empty, and destroys no
handle (the new idle pool is exactly the old idle pool plus every in-use
handle); the allocation counter is untouched. -/
theorem handle_release_unconditional (urls : List Url) (p : Pool)
    (h0 : p.inUse = []) (h2 : (keysH p.available).Nodup) :
    (clearUsedHandles (getAvailableHandles urls p)).inUse = [] ∧
    (clearUsedHandles (getAvailableHandles urls p)).available =
      (getAvailableHandles urls p).available ++ (getAvailableHandles urls p).inUse ∧
    (clearUsedHandles (getAvailableHandles urls p)).next =
      (getAvailableHandles urls p).next := by
  have hdisj := acquire_disjoint urls p h0 h2
  refine ⟨?_, ?_, rfl⟩
  · show ((getAvailableHandles urls p).inUse.filter
      (fun e => decide (e.1 ∈ keysH (getAvailableHandles urls p).available))) = []
    rw [List.filter_eq_nil_iff]
    intro e he
    simp only [decide_eq_true_eq]
    exact hdisj e he
  · show (getAvailableHandles urls p).available ++
      ((getAvailableHandles urls p).inUse.filter
        (fun e => decide (e.1 ∉ keysH (getAvailableHandles urls p).available))) = _
    congr 1
    rw [List.filter_eq_self]
    intro e he
    simp only [decide_eq_true_eq]
    exact hdisj e he

/-- Witness for `handle_release_unconditional`: one idle handle bound to
`"b"` is rebound to the requested `"a"`, then released back whole. -/
theorem handle_release_unconditional_witness :
    (clearUsedHandles (getAvailableHandles [⟨"a"⟩] ⟨[(⟨"b"⟩, 0)], [], 1⟩)).inUse = [] ∧
    (clearUsedHandles (getAvailableHandles [⟨"a"⟩] ⟨[(⟨"b"⟩, 0)], [], 1⟩)).available =
      (getAvailableHandles [⟨"a"⟩] ⟨[(⟨"b"⟩, 0)], [], 1⟩).available ++
      (getAvailableHandles [⟨"a"⟩] ⟨[(⟨"b"⟩, 0)], [], 1⟩).inUse ∧
    (clearUsedHandles (getAvailableHandles [⟨"a"⟩] ⟨[(⟨"b"⟩, 0)], [], 1⟩)).next =
      (getAvailableHandles [⟨"a"⟩] ⟨[(⟨"b"⟩, 0)], [], 1⟩).next :=
  handle_release_unconditional [⟨"a"⟩] ⟨[(⟨"b"⟩, 0)], [], 1⟩ rfl (by decide)

/-! ## Result-map theorems (claims C1, C10) -/

theorem getResults_mem_iff (rb : RetryBehavior) (outs : Url → Nat → Outcome)
    (parse : String → Json) (ks : List Url) (u : Url) (j : Json) :
    (u, j) ∈ getResults rb outs parse ks ↔
      u ∈ ks ∧ j = ExtractData parse (runUrl rb (outs u) 0).1.body ∧
        j ≠ Json.null := by
  unfold getResults
  rw [List.mem_filterMap]
  constructor
  · rintro ⟨a, ha, hf⟩
    dsimp only at hf
    split at hf
    · cases hf
    · next hn =>
      have hpair := Option.some.inj hf
      have ha2 : a = u := congrArg Prod.fst hpair
      have hj : ExtractData parse (runUrl rb (outs a) 0).1.body = j :=
        congrArg Prod.snd hpair
      subst ha2
      exact ⟨ha, hj.symm, fun hc => hn (hj.trans hc)⟩
  · rintro ⟨hu, hj, hne⟩
    refine ⟨u, hu, ?_⟩
    dsimp only
    rw [if_neg (fun hc => hne (hj.trans hc)), hj]

/-- Starting between batches, the urls with an in-use handle after acquire
are exactly the requested urls. -/
theorem acquire_keys_mem_iff (urls : List Url) (p : Pool) (h0 : p.inUse = [])
    (u : Url) : u ∈ keysH (getAvailableHandles urls p).inUse ↔ u ∈ urls := by
  constructor
  · intro hm
    rcases mem_keysH.mp hm with ⟨hh, hmem⟩
    rcases step2_inUse_from urls _ hmem with h1 | h1
    · rcases step1_inUse_from urls p h1 with h2 | h2
      · rw [h0] at h2
        exact absurd h2 (List.not_mem_nil _)
      · exact h2.1
    · exact h1
  · intro hm
    exact step2_covers urls _ u hm

/-- C1 (amended): the returned map contains exactly those requested Urls
whose final extracted data is non-null.  A Url whose transfer ends in an
unrecovered transport error, an empty body after exhausting retries, or a
JSON parse failure (all of which extract to null) is OMITTED from the map
— absent, not present-with-null; every other Url's entry is present with
its parsed document, so per-Url failures never abort the batch. -/
theorem get_result_map_spec (mc : Int) (rb : RetryBehavior) (urls : List Url)
    (outs : Url → Nat → Outcome) (parse : String → Json) (p : Pool)
    (h0 : p.inUse = []) (u : Url) (j : Json) :
    (u, j) ∈ (GetFull mc rb urls outs parse p).1 ↔
      (u ∈ urls ∧ j = ExtractData parse (runUrl rb (outs u) 0).1.body ∧
        j ≠ Json.null) := by
  show (u, j) ∈ getResults rb outs parse
    (keysH (getAvailableHandles urls p).inUse) ↔ _
  rw [getResults_mem_iff, acquire_keys_mem_iff urls p h0]

/-- Witness for `get_result_map_spec`: a url whose transfer succeeds with a
parseable body is present in the map with its parsed document. -/
theorem get_result_map_spec_witness :
    (⟨"u"⟩, Json.val "x") ∈
      (GetFull 0 ⟨0, [], false, 0⟩ [⟨"u"⟩] (fun _ _ => ⟨CurlCode.ok, "x"⟩)
        (fun s => Json.val s) ⟨[], [], 0⟩).1 :=
  (get_result_map_spec 0 ⟨0, [], false, 0⟩ [⟨"u"⟩] (fun _ _ => ⟨CurlCode.ok, "x"⟩)
    (fun s => Json.val s) ⟨[], [], 0⟩ rfl ⟨"u"⟩ (Json.val "x")).mpr
    ⟨by decide, by decide, by decide⟩

/-- C1 counterexample: a url whose every attempt fails outright
(`CURLE_COULDNT_CONNECT`, empty body) extracts to null, so the returned map
is EMPTY — the url is absent, not present with an empty/null result as the
claim states. -/
theorem get_result_map_cex :
    (GetFull 0 ⟨0, [], false, 0⟩ [⟨"https://example.com/a"⟩]
      (fun _ _ => ⟨CurlCode.otherError 7, ""⟩) (fun _ => Json.null)
      ⟨[], [], 0⟩).1 = [] ∧
    (⟨"https://example.com/a"⟩, Json.null) ∉
      (GetFull 0 ⟨0, [], false, 0⟩ [⟨"https://example.com/a"⟩]
        (fun _ _ => ⟨CurlCode.otherError 7, ""⟩) (fun _ => Json.null)
        ⟨[], [], 0⟩).1 := by
  exact ⟨rfl, by decide⟩

/-- C10: `Get` on an empty url set returns the empty map, acquires no
handles, issues no transfer attempts, and returns the pool unchanged, for
every `max_connections` and every `RetryBehavior`. -/
theorem get_empty_urlset (mc : Int) (rb : RetryBehavior)
    (outs : Url → Nat → Outcome) (parse : String → Json) (p : Pool)
    (h0 : p.inUse = []) :
    (GetFull mc rb [] outs parse p).1 = [] ∧
    (GetFull mc rb [] outs parse p).2 = p ∧
    getAvailableHandles [] p = p ∧
    attemptTotal rb outs (keysH (getAvailableHandles [] p).inUse) = 0 := by
  obtain ⟨avail, inUse, nx⟩ := p
  change inUse = [] at h0
  subst h0
  refine ⟨rfl, ?_, rfl, rfl⟩
  show clearUsedHandles ⟨avail, [], nx⟩ = ⟨avail, [], nx⟩
  unfold clearUsedHandles
  simp

/-- Witness for `get_empty_urlset` at a concrete non-trivial pool, retry
behavior and connection cap. -/
theorem get_empty_urlset_witness :
    (GetFull 3 ⟨1, [404], true, 2⟩ [] (fun _ _ => ⟨CurlCode.ok, "x"⟩)
      (fun s => Json.val s) ⟨[(⟨"u"⟩, 5)], [], 9⟩).1 = [] ∧
    (GetFull 3 ⟨1, [404], true, 2⟩ [] (fun _ _ => ⟨CurlCode.ok, "x"⟩)
      (fun s => Json.val s) ⟨[(⟨"u"⟩, 5)], [], 9⟩).2 = ⟨[(⟨"u"⟩, 5)], [], 9⟩ ∧
    getAvailableHandles [] ⟨[(⟨"u"⟩, 5)], [], 9⟩ = ⟨[(⟨"u"⟩, 5)], [], 9⟩ ∧
    attemptTotal ⟨1, [404], true, 2⟩ (fun _ _ => ⟨CurlCode.ok, "x"⟩)
      (keysH (getAvailableHandles [] ⟨[(⟨"u"⟩, 5)], [], 9⟩).inUse) = 0 :=
  get_empty_urlset 3 ⟨1, [404], true, 2⟩ (fun _ _ => ⟨CurlCode.ok, "x"⟩)
    (fun s => Json.val s) ⟨[(⟨"u"⟩, 5)], [], 9⟩ rfl

end Iex
